import Mathlib

/-!
Verification development for the recurring-event materialization engine of
`makerspace-rsvp` (`app/lib/recurrence.ts` and the series reconciliation
actions in `app/routes/admin.series.$id.tsx`,
`app/routes/admin.events.$id_.scan.tsx`).

Modelling conventions of the shallow embedding:

* A calendar date string `"YYYY-MM-DD"` is represented by its parsed
  components `DateYMD` (the exact result of the source's `parseDateString`:
  `year`, 0-indexed `month`, `day`).  `formatDateString` reproduces the
  canonical string form.  The source's `compareDateStrings` compares the
  zero-padded strings lexicographically; on parsed components of canonical
  four-digit-year dates that is exactly lexicographic comparison of
  `(year, month, day)`, which is how `compareDateStrings` is defined here.
* JavaScript `Date.UTC(year, month, day)` normalization (used by the source
  for all date arithmetic: arbitrary month and day offsets are folded into a
  day count and re-extracted as calendar components) is modelled by
  `daysFromCivil` (civil date to days since 1970-01-01, proleptic Gregorian)
  and `fromDays` (its inverse).  `fromDays_correct` and
  `fromDays_daysFromCivil` below certify that the pair is a bijection
  between day numbers and normalized calendar triples, i.e. that the model
  agrees with the engine's UTC calendar arithmetic.
* All integer division below is Euclidean (`/` = `Int.ediv`, `%` = `Int.emod`,
  which for the positive literal divisors used here coincide with floor
  division, matching JavaScript's `Math.floor` based computations).
-/

namespace Recurrence

/-- Parsed form of a `YYYY-MM-DD` date string, as produced by the source's
`parseDateString`: `month` is 0-indexed (January = 0). -/
structure DateYMD where
  year : Int
  month : Int
  day : Int
deriving DecidableEq, Repr

/-- Proleptic-Gregorian leap year test (the rule implemented by JavaScript's
UTC `Date`, which the source uses for `getDaysInMonth`/`getDayOfWeek`). -/
def isLeapYear (y : Int) : Bool :=
  decide (y % 4 = 0 ∧ (y % 100 ≠ 0 ∨ y % 400 = 0))

/-- Source `getDaysInMonth(year, month)` (0-indexed month): the number of
days of the month, computed in the source as
`new Date(Date.UTC(year, month + 1, 0)).getUTCDate()`.  An out-of-range
month is normalized into the adjacent years exactly as `Date.UTC` does. -/
def getDaysInMonth (year month : Int) : Int :=
  let ym := 12 * year + month
  let yn := ym / 12
  let mn := ym % 12
  if mn = 1 then (if isLeapYear yn then 29 else 28)
  else if mn = 3 ∨ mn = 5 ∨ mn = 8 ∨ mn = 10 then 30
  else 31

/-- Days since 1970-01-01 of the civil date `(y, mm, d)` with 1-indexed month
`mm ∈ [1, 12]` (day `d` unrestricted, it enters linearly), proleptic
Gregorian. -/
def civilToDays (y mm d : Int) : Int :=
  let ys := if mm ≤ 2 then y - 1 else y
  let ms := if mm ≤ 2 then mm + 12 else mm
  365 * ys + ys / 4 - ys / 100 + ys / 400 + (153 * (ms - 3) + 2) / 5 + d - 1 - 719468

/-- Timestamp (in days since 1970-01-01) of `Date.UTC(year, month, day)` with
0-indexed `month`: month and day may be arbitrary integers and are
normalized exactly as JavaScript does (month folded into the year, day as a
linear offset). -/
def daysFromCivil (year month day : Int) : Int :=
  let ym := 12 * year + month
  civilToDays (ym / 12) (ym % 12 + 1) day

/-- Calendar components `(getUTCFullYear, getUTCMonth, getUTCDate)` of the day
number `z` (days since 1970-01-01): the inverse of `daysFromCivil`,
computed era by era. -/
def fromDays (z : Int) : DateYMD :=
  let n := z + 719468
  let era := n / 146097
  let doe := n - 146097 * era
  let c := (4 * doe + 3) / 146097
  let doc := doe - 36524 * c
  let i := (4 * doc + 3) / 1461
  let doy := doc - (365 * i + i / 4)
  let y := 400 * era + 100 * c + i
  let mp := (5 * doy + 2) / 153
  let d := doy - (153 * mp + 2) / 5 + 1
  let mm := if mp < 10 then mp + 3 else mp - 9
  ⟨if mm ≤ 2 then y + 1 else y, mm - 1, d⟩

/-- Source `getDayOfWeek(year, month, day)` (0 = Sunday .. 6 = Saturday),
computed as `new Date(Date.UTC(year, month, day)).getUTCDay()`; day 0
(1970-01-01) is a Thursday (= 4). -/
def getDayOfWeek (year month day : Int) : Int :=
  (daysFromCivil year month day + 4) % 7

/-- Lexicographic order on parsed date components: for canonical zero-padded
`YYYY-MM-DD` strings this is exactly the string order used by the source. -/
def dateStrLt (a b : DateYMD) : Bool :=
  decide (a.year < b.year ∨ (a.year = b.year ∧
    (a.month < b.month ∨ (a.month = b.month ∧ a.day < b.day))))

/-- Source `compareDateStrings`: `-1` if `a < b`, `1` if `a > b`, else `0`. -/
def compareDateStrings (a b : DateYMD) : Int :=
  if dateStrLt a b then -1 else if dateStrLt b a then 1 else 0

/-- Two-digit zero padding, as in the source's `String(n).padStart(2, "0")`. -/
def padTwo (n : Int) : String :=
  if 0 ≤ n ∧ n < 10 then "0" ++ toString n else toString n

/-- Source `formatDateString(year, month, day)` (0-indexed month):
the canonical `YYYY-MM-DD` string. -/
def formatDateString (year month day : Int) : String :=
  toString year ++ "-" ++ padTwo (month + 1) ++ "-" ++ padTwo day

/-- Source `addDaysToDateString`: parse, add the day offset through
`Date.UTC` normalization, and read the components back. -/
def addDaysToDateString (t : DateYMD) (days : Int) : DateYMD :=
  fromDays (daysFromCivil t.year t.month (t.day + days))

/-- Source `addWeeksToDateString`. -/
def addWeeksToDateString (t : DateYMD) (weeks : Int) : DateYMD :=
  addDaysToDateString t (weeks * 7)

/-- Source `addMonthsToDateString`: keep the day, clamped to the target
month's length.  (JavaScript's truncating `%` composed with `+ 12` and a
second `%` yields the Euclidean residue, which is what `%` computes here.) -/
def addMonthsToDateString (t : DateYMD) (months : Int) : DateYMD :=
  let newMonth := t.month + months
  let newYear := t.year + newMonth / 12
  let normalizedMonth := (newMonth % 12 + 12) % 12
  let daysInNewMonth := getDaysInMonth newYear normalizedMonth
  let newDay := min t.day daysInNewMonth
  ⟨newYear, normalizedMonth, newDay⟩

/-- A parsed triple is *normalized* when it denotes an actual calendar date:
the form every `YYYY-MM-DD` string produced by the engine has. -/
def Normalized (t : DateYMD) : Prop :=
  0 ≤ t.month ∧ t.month ≤ 11 ∧ 1 ≤ t.day ∧ t.day ≤ getDaysInMonth t.year t.month

instance (t : DateYMD) : Decidable (Normalized t) := by
  unfold Normalized; infer_instance

/-! ### Recurrence rule model (`app/lib/recurrence.ts`) -/

/-- Source `Frequency`. -/
inductive Frequency
  | weekly
  | biweekly
  | monthly
deriving DecidableEq, Repr

/-- Source `MonthlyPattern.type` (the two variants of the monthly pattern). -/
inductive MonthlyPatternType
  | dayOfMonth
  | weekdayOfMonth
deriving DecidableEq, Repr

/-- Source `MonthlyPattern`: all three numeric fields are optional in the
TypeScript interface. -/
structure MonthlyPattern where
  type : MonthlyPatternType
  day : Option Int
  weekday : Option Int
  occurrence : Option Int
deriving DecidableEq, Repr

/-- Source `RecurrenceRule`. -/
structure RecurrenceRule where
  frequency : Frequency
  daysOfWeek : Option (List Int)
  monthlyPattern : Option MonthlyPattern
deriving DecidableEq, Repr

/-- `findNth` mirrors the counting loop of `getNthWeekdayOfMonth` for a
positive occurrence: walk the days in order, increment the match count, and
return the day whose count equals the requested occurrence. -/
def findNth (year month weekday occurrence : Int) : Int → List Int → Option Int
  | _, [] => none
  | count, dd :: rest =>
    if getDayOfWeek year month dd == weekday then
      (if count + 1 = occurrence then some dd
       else findNth year month weekday occurrence (count + 1) rest)
    else findNth year month weekday occurrence count rest

/-- Source `getNthWeekdayOfMonth(year, month, weekday, occurrence)`:
`occurrence = -1` scans the days of the month downward and returns the first
matching weekday; otherwise the days are scanned upward counting matches.
Returns `none` when the requested occurrence does not exist. -/
def getNthWeekdayOfMonth (year month weekday occurrence : Int) : Option DateYMD :=
  let daysInMonth := getDaysInMonth year month
  if occurrence = -1 then
    (((List.range daysInMonth.toNat).map (fun (k : Nat) => daysInMonth - (k : Int))).find?
      (fun dd => getDayOfWeek year month dd == weekday)).map
      (fun dd => ⟨year, month, dd⟩)
  else
    (findNth year month weekday occurrence 0
      ((List.range daysInMonth.toNat).map (fun (k : Nat) => (k : Int) + 1))).map
      (fun dd => ⟨year, month, dd⟩)

/-- JavaScript truthiness guard `endDate && compareDateStrings(d, endDate) > 0`. -/
def pastEnd (endDate : Option DateYMD) (d : DateYMD) : Bool :=
  match endDate with
  | none => false
  | some e => decide (0 < compareDateStrings d e)

/-- JavaScript truthiness guard `maxOccurrences && count >= maxOccurrences`
(`0` is falsy, so a zero maximum imposes no limit, exactly as in the
source). -/
def maxOccReached (maxOccurrences : Option Int) (count : Int) : Bool :=
  match maxOccurrences with
  | none => false
  | some m => decide (m ≠ 0) && decide (m ≤ count)

/-- Inner `for (const dayOfWeek of rule.daysOfWeek.sort(...))` loop of the
weekly/biweekly branch of `generateOccurrences`: emit the candidate dates of
the current week, skipping candidates before the start date; the `Bool`
component records whether one of the three stop conditions fired (the
source's early `return`). -/
def pushDays (startDate : DateYMD) (endDate : Option DateYMD)
    (maxOccurrences : Option Int) (untilDate : DateYMD) (currentWeekStart : DateYMD) :
    List Int → List DateYMD → Int → List DateYMD × Int × Bool
  | [], acc, count => (acc, count, false)
  | w :: rest, acc, count =>
    let dateStr := addDaysToDateString currentWeekStart w
    if compareDateStrings dateStr startDate < 0 then
      pushDays startDate endDate maxOccurrences untilDate currentWeekStart rest acc count
    else if pastEnd endDate dateStr then (acc, count, true)
    else if maxOccReached maxOccurrences count then (acc, count, true)
    else if 0 < compareDateStrings dateStr untilDate then (acc, count, true)
    else
      pushDays startDate endDate maxOccurrences untilDate currentWeekStart rest
        (acc ++ [dateStr]) (count + 1)

/-- Outer `while (true)` loop of the weekly/biweekly branch: one iteration
per week, stopping on an early return from the inner loop or at the
520-week safety limit.  The `fuel` argument only forces termination; the
initial fuel (600) strictly exceeds the 521 weeks the safety limit
admits, so the fuel never runs out. -/
def weeklyLoop (startDate : DateYMD) (endDate : Option DateYMD)
    (maxOccurrences : Option Int) (untilDate : DateYMD) (daysSorted : List Int)
    (step : Int) (weekStartDate : DateYMD) :
    Nat → Int → Int → List DateYMD → List DateYMD
  | 0, _, _, acc => acc
  | fuel + 1, weekOffset, count, acc =>
    let currentWeekStart := addWeeksToDateString weekStartDate (weekOffset * step)
    match pushDays startDate endDate maxOccurrences untilDate currentWeekStart
        daysSorted acc count with
    | (acc2, _, true) => acc2
    | (acc2, count2, false) =>
      if 520 < weekOffset + 1 then acc2
      else
        weeklyLoop startDate endDate maxOccurrences untilDate daysSorted step
          weekStartDate fuel (weekOffset + 1) count2 acc2

/-- `while (true)` loop of the degenerate weekly/biweekly branch (no
explicit day set): step whole weeks from the start date itself. -/
def simpleLoop (endDate : Option DateYMD) (maxOccurrences : Option Int)
    (untilDate : DateYMD) (step : Int) :
    Nat → DateYMD → Int → List DateYMD → List DateYMD
  | 0, _, _, acc => acc
  | fuel + 1, currentDate, count, acc =>
    if pastEnd endDate currentDate then acc
    else if maxOccReached maxOccurrences count then acc
    else if 0 < compareDateStrings currentDate untilDate then acc
    else
      let acc2 := acc ++ [currentDate]
      let count2 := count + 1
      let nextDate := addWeeksToDateString currentDate step
      if 520 < count2 then acc2
      else simpleLoop endDate maxOccurrences untilDate step fuel nextDate count2 acc2

/-- Candidate date of one month in the monthly branch: the `dateStr`
variable of the source (with the JavaScript truthiness checks on the
pattern's fields). -/
def monthlyDate (pattern : Option MonthlyPattern) (year month : Int) : Option DateYMD :=
  match pattern with
  | none => none
  | some p =>
    match p.type with
    | .dayOfMonth =>
      match p.day with
      | none => none
      | some dd =>
        if dd = 0 then none
        else some ⟨year, month, min dd (getDaysInMonth year month)⟩
    | .weekdayOfMonth =>
      match p.weekday, p.occurrence with
      | some w, some o => getNthWeekdayOfMonth year month w o
      | _, _ => none

/-- Advance to the next month (the source's `month++` with year wrap). -/
def monthlyNext (year month : Int) : Int × Int :=
  if 11 < month + 1 then (year + 1, 0) else (year, month + 1)

/-- `while (true)` loop of the monthly branch: one iteration per month,
stopping on an early return or when more than ten years past the start
year.  Initial fuel (200) strictly exceeds the at most 133 months the
ten-year safety limit admits. -/
def monthlyLoop (startDate : DateYMD) (endDate : Option DateYMD)
    (maxOccurrences : Option Int) (untilDate : DateYMD)
    (pattern : Option MonthlyPattern) (startYear : Int) :
    Nat → Int → Int → Int → List DateYMD → List DateYMD
  | 0, _, _, _, acc => acc
  | fuel + 1, year, month, count, acc =>
    match monthlyDate pattern year month with
    | none =>
      let next := monthlyNext year month
      if 10 < next.1 - startYear then acc
      else monthlyLoop startDate endDate maxOccurrences untilDate pattern startYear
        fuel next.1 next.2 count acc
    | some dateStr =>
      if compareDateStrings dateStr startDate < 0 then
        let next := monthlyNext year month
        if 10 < next.1 - startYear then acc
        else monthlyLoop startDate endDate maxOccurrences untilDate pattern startYear
          fuel next.1 next.2 count acc
      else if pastEnd endDate dateStr then acc
      else if maxOccReached maxOccurrences count then acc
      else if 0 < compareDateStrings dateStr untilDate then acc
      else
        let next := monthlyNext year month
        if 10 < next.1 - startYear then acc ++ [dateStr]
        else monthlyLoop startDate endDate maxOccurrences untilDate pattern startYear
          fuel next.1 next.2 (count + 1) (acc ++ [dateStr])

/-- Source `generateOccurrences`.  `untilDate` is the caller-supplied
`generateUntil` horizon (when absent the source defaults it to three months
from the wall-clock day, a dependency outside this pure model; every claim
below supplies the horizon explicitly). -/
def generateOccurrences (rule : RecurrenceRule) (startDate : DateYMD)
    (endDate : Option DateYMD) (maxOccurrences : Option Int)
    (untilDate : DateYMD) : List DateYMD :=
  match rule.frequency with
  | .monthly =>
    monthlyLoop startDate endDate maxOccurrences untilDate rule.monthlyPattern
      startDate.year 200 startDate.year startDate.month 0 []
  | freq =>
    let step : Int := if freq = .biweekly then 2 else 1
    match rule.daysOfWeek with
    | some days =>
      if 0 < days.length then
        let startDayOfWeek := getDayOfWeek startDate.year startDate.month startDate.day
        let weekStartDate := addDaysToDateString startDate (-startDayOfWeek)
        let daysSorted := days.insertionSort (· ≤ ·)
        weeklyLoop startDate endDate maxOccurrences untilDate daysSorted step
          weekStartDate 600 0 0 []
      else simpleLoop endDate maxOccurrences untilDate step 600 startDate 0 []
    | none => simpleLoop endDate maxOccurrences untilDate step 600 startDate 0 []

/-! ### Series reconciliation (`app/routes/admin.series.$id.tsx`) and
construction-time validation (`app/routes/admin.events.$id_.scan.tsx`) -/

/-- Construction-time validation of the recurrence rule performed by the
series-creation action: the argument is the result of `parseRecurrenceRule`
(`none` models a `JSON.parse` throw, caught by the action).  Mirrors the
`try`/`catch` block: an unparseable rule and a weekly/biweekly rule with a
missing or empty `daysOfWeek` are the only rejections. -/
def recurrenceValidationError (parsed : Option RecurrenceRule) : Option String :=
  match parsed with
  | none => some "Invalid recurrence pattern"
  | some rule =>
    if (rule.frequency = .weekly ∨ rule.frequency = .biweekly) ∧
        (rule.daysOfWeek = none ∨ rule.daysOfWeek = some [])
    then some "Select at least one day of the week"
    else none

/-- An event-instance row as seen by the `regenerate-instances` action:
`hasRsvps` models whether the `rsvps` table holds a row for this event (the
action's `hasRsvps` query). -/
structure RegenInstance where
  id : Nat
  seriesId : Nat
  date : DateYMD
  isSeriesException : Bool
  hasRsvps : Bool
deriving DecidableEq, Repr

/-- Deletion pass of the `regenerate-instances` action: select the series'
instances with `date >= today` (the `futureInstances` query), then delete
each one whose RSVP lookup comes back empty. -/
def regenerateDeleted (instances : List RegenInstance) (sid : Nat)
    (today : DateYMD) : List RegenInstance :=
  let futureInstances := instances.filter
    (fun i => decide (i.seriesId = sid) && decide (0 ≤ compareDateStrings i.date today))
  futureInstances.filter (fun i => !i.hasRsvps)

/-- The instance ids deleted by `regenerate-instances`. -/
def regenerateDeleteIds (instances : List RegenInstance) (sid : Nat)
    (today : DateYMD) : List Nat :=
  (regenerateDeleted instances sid today).map (fun i => i.id)

/-- The template content fields that the `update-series` action copies onto
instances (its `db.update(events).set({...})` payload, minus the wall-clock
`updatedAt` timestamp). -/
structure InstanceContent where
  name : String
  description : String
  timeStart : String
  timeEnd : Option String
  location : String
  capacity : Option Int
  requiresWaiver : Bool
  waiverText : Option String
  discordLink : Option String
deriving DecidableEq, Repr

/-- An event-instance row as seen by the `update-series` action. -/
structure SeriesEventInstance where
  id : Nat
  seriesId : Nat
  date : DateYMD
  isSeriesException : Bool
  content : InstanceContent
deriving DecidableEq, Repr

/-- Instance update of the `update-series` action: the `where` clause
restricts the content write to rows with this `seriesId`, with
`isSeriesException = false`, and with `date >= today`; all other rows are
untouched.  (The action's rule/bounds fields are written only to the
`eventSeries` row, never to the `events` table.) -/
def updateSeriesInstances (instances : List SeriesEventInstance) (sid : Nat)
    (today : DateYMD) (newContent : InstanceContent) : List SeriesEventInstance :=
  instances.map (fun i =>
    if i.seriesId = sid ∧ i.isSeriesException = false ∧
        0 ≤ compareDateStrings i.date today
    then { i with content := newContent } else i)

/-- An event-instance row as seen by the `generate-more` action: `date` is
used to find the latest instance, `seriesInstanceDate` feeds the
duplicate-avoidance set. -/
structure ExtInstance where
  date : DateYMD
  seriesInstanceDate : DateYMD
deriving DecidableEq, Repr

/-- The `orderBy(desc(events.date)).get()` query of `generate-more`: the
latest instance date of the series, or `none` when no instance exists. -/
def latestInstanceDate (instances : List ExtInstance) : Option DateYMD :=
  instances.foldl
    (fun acc i =>
      match acc with
      | none => some i.date
      | some d => if 0 < compareDateStrings i.date d then some i.date else some d)
    none

/-- The `generate-more` action as a pure function (`reconcileExtend` of the
specification): restart generation at the latest materialized instance date
(or the template start date), then drop every generated date already present
in the series' `seriesInstanceDate` set; the result is the list of dates to
create. -/
def reconcileExtend (rule : RecurrenceRule) (seriesStartDate : DateYMD)
    (endDate : Option DateYMD) (maxOccurrences : Option Int)
    (instances : List ExtInstance) (generateUntil : DateYMD) : List DateYMD :=
  let startFrom := (latestInstanceDate instances).getD seriesStartDate
  let existingDates := instances.map (fun i => i.seriesInstanceDate)
  (generateOccurrences rule startFrom endDate maxOccurrences generateUntil).filter
    (fun d => !(existingDates.contains d))


/-! ### Calendar arithmetic lemmas -/

/-- `daysFromCivil` is linear in the day component (the source adds day
offsets through `Date.UTC`, which folds them in linearly). -/
theorem daysFromCivil_add (y m d n : Int) :
    daysFromCivil y m (d + n) = daysFromCivil y m d + n := by
  simp only [daysFromCivil, civilToDays]
  split_ifs <;> ring

/-- Evaluation of `getDaysInMonth` on an in-range month. -/
theorem getDaysInMonth_eval (y m : Int) (h0 : 0 ≤ m) (h1 : m ≤ 11) :
    getDaysInMonth y m =
      if m = 1 then (if y % 4 = 0 ∧ (y % 100 ≠ 0 ∨ y % 400 = 0) then 29 else 28)
      else if m = 3 ∨ m = 5 ∨ m = 8 ∨ m = 10 then 30 else 31 := by
  simp only [getDaysInMonth, isLeapYear, decide_eq_true_eq]
  have e1 : (12 * y + m) / 12 = y := by omega
  have e2 : (12 * y + m) % 12 = m := by omega
  rw [e1, e2]

/-- Every month has between 28 and 31 days. -/
theorem getDaysInMonth_bounds (y m : Int) :
    28 ≤ getDaysInMonth y m ∧ getDaysInMonth y m ≤ 31 := by
  simp only [getDaysInMonth]
  split_ifs <;> omega

/-- Evaluation of `daysFromCivil` on an in-range month. -/
theorem daysFromCivil_eval (y m d : Int) (h0 : 0 ≤ m) (h1 : m ≤ 11) :
    daysFromCivil y m d = civilToDays y (m + 1) d := by
  simp only [daysFromCivil]
  have e1 : (12 * y + m) / 12 = y := by omega
  have e2 : (12 * y + m) % 12 = m := by omega
  rw [e1, e2]

/-- Within a 400-year era, the century/year/month/day extraction of
`fromDays` lands in range and reconstructs the day of era. -/
theorem eraCore (doe c doc i doy mp d : Int)
    (h0 : 0 ≤ doe) (h1 : doe ≤ 146096)
    (hc : c = (4 * doe + 3) / 146097) (hdoc : doc = doe - 36524 * c)
    (hi : i = (4 * doc + 3) / 1461) (hdoy : doy = doc - (365 * i + i / 4))
    (hmp : mp = (5 * doy + 2) / 153) (hd : d = doy - (153 * mp + 2) / 5 + 1) :
    0 ≤ c ∧ c ≤ 3 ∧ 0 ≤ i ∧ i ≤ 99 ∧ 0 ≤ doy ∧ doy ≤ 365 ∧ 0 ≤ mp ∧ mp ≤ 11 ∧
    1 ≤ d ∧ d ≤ 31 ∧
    ((mp = 1 ∨ mp = 3 ∨ mp = 6 ∨ mp = 8) → d ≤ 30) ∧
    (mp = 11 → d ≤ 29 ∧ (d = 29 → i % 4 = 3 ∧ (i = 99 → c = 3))) ∧
    36524 * c + 365 * i + i / 4 + doy = doe ∧
    (153 * mp + 2) / 5 + d - 1 = doy := by
  omega

/-- The year-dependent part of `civilToDays`, split along era, century and
year-of-century. -/
theorem yearSplit (era c i : Int) (hc1 : 0 ≤ c) (hc2 : c ≤ 3) (hi1 : 0 ≤ i) (hi2 : i ≤ 99) :
    365 * (400 * era + 100 * c + i) + (400 * era + 100 * c + i) / 4
      - (400 * era + 100 * c + i) / 100 + (400 * era + 100 * c + i) / 400 =
    146097 * era + 36524 * c + 365 * i + i / 4 := by
  omega

/-- `fromDays` produces a normalized calendar date and is a right inverse of
`daysFromCivil`: the model's day-number/calendar-component conversions agree
with the UTC calendar used by the source. -/
theorem fromDays_correct (z : Int) :
    Normalized (fromDays z) ∧
    daysFromCivil (fromDays z).year (fromDays z).month (fromDays z).day = z := by
  obtain ⟨era, doe, c, doc, i, doy, mp, d, mm, yy, hera, hdoe, hc, hdoc, hi, hdoy,
      hmp, hd, hmm, hyy, heq⟩ :
      ∃ era doe c doc i doy mp d mm yy,
        era = (z + 719468) / 146097 ∧
        doe = z + 719468 - 146097 * era ∧
        c = (4 * doe + 3) / 146097 ∧
        doc = doe - 36524 * c ∧
        i = (4 * doc + 3) / 1461 ∧
        doy = doc - (365 * i + i / 4) ∧
        mp = (5 * doy + 2) / 153 ∧
        d = doy - (153 * mp + 2) / 5 + 1 ∧
        mm = (if mp < 10 then mp + 3 else mp - 9) ∧
        yy = 400 * era + 100 * c + i ∧
        fromDays z = ⟨if mm ≤ 2 then yy + 1 else yy, mm - 1, d⟩ :=
    ⟨_, _, _, _, _, _, _, _, _, _, rfl, rfl, rfl, rfl, rfl, rfl, rfl, rfl, rfl, rfl, rfl⟩
  obtain ⟨hc0, hc3, hi0, hi99, hdoy0, hdoy365, hmp0, hmp11, hd1, hd31, hd30, hfeb,
      hsum, hdsum⟩ :=
    eraCore doe c doc i doy mp d (by omega) (by omega) hc hdoc hi hdoy hmp hd
  have hyear := yearSplit era c i hc0 hc3 hi0 hi99
  rw [← hyy] at hyear
  clear hc hdoc hi hdoy hmp
  rw [heq]
  by_cases h10 : mp < 10
  · rw [if_pos h10] at hmm
    rw [if_neg (show ¬ mm ≤ 2 by omega)]
    constructor
    · refine ⟨by dsimp only; omega, by dsimp only; omega, by dsimp only; omega, ?_⟩
      dsimp only
      rw [getDaysInMonth_eval yy (mm - 1) (by omega) (by omega)]
      split_ifs with hf hl h30
      · omega
      · omega
      · omega
      · omega
    · dsimp only
      rw [daysFromCivil_eval yy (mm - 1) d (by omega) (by omega)]
      simp only [civilToDays]
      simp only [if_neg (show ¬ (mm - 1 + 1 : Int) ≤ 2 by omega)]
      have h5 : (153 * (mm - 1 + 1 - 3) + 2) / 5 = doy - d + 1 := by omega
      rw [h5]
      omega
  · rw [if_neg h10] at hmm
    rw [if_pos (show mm ≤ 2 by omega)]
    constructor
    · refine ⟨by dsimp only; omega, by dsimp only; omega, by dsimp only; omega, ?_⟩
      dsimp only
      rw [getDaysInMonth_eval (yy + 1) (mm - 1) (by omega) (by omega)]
      split_ifs with hf hl h30
      · omega
      · omega
      · omega
      · omega
    · dsimp only
      rw [daysFromCivil_eval (yy + 1) (mm - 1) d (by omega) (by omega)]
      simp only [civilToDays]
      simp only [if_pos (show (mm - 1 + 1 : Int) ≤ 2 by omega)]
      simp only [show (yy + 1 - 1 : Int) = yy from by ring]
      have h5 : (153 * (mm - 1 + 1 + 12 - 3) + 2) / 5 = doy - d + 1 := by omega
      rw [h5]
      omega

set_option maxHeartbeats 1600000 in
/-- Strict monotonicity of `daysFromCivil` with respect to the date order, on
normalized dates: earlier calendar date, smaller day number. -/
theorem daysFromCivil_strictMono {a b : DateYMD} (ha : Normalized a) (hb : Normalized b)
    (hlt : dateStrLt a b = true) :
    daysFromCivil a.year a.month a.day < daysFromCivil b.year b.month b.day := by
  obtain ⟨ha0, ha1, ha2, ha3⟩ := ha
  obtain ⟨hb0, hb1, hb2, hb3⟩ := hb
  rw [getDaysInMonth_eval _ _ ha0 ha1] at ha3
  rw [getDaysInMonth_eval _ _ hb0 hb1] at hb3
  rw [daysFromCivil_eval _ _ _ ha0 ha1, daysFromCivil_eval _ _ _ hb0 hb1]
  simp only [dateStrLt, decide_eq_true_eq] at hlt
  simp only [civilToDays]
  split_ifs at ha3 hb3 ⊢ <;> omega

/-- Trichotomy for the date order. -/
theorem dateStr_eq_of_not_lt {a b : DateYMD} (h1 : dateStrLt a b = false)
    (h2 : dateStrLt b a = false) : a = b := by
  cases a; cases b
  simp only [dateStrLt, decide_eq_false_iff_not] at h1 h2
  simp only [DateYMD.mk.injEq]
  omega

/-- Strict monotonicity of `fromDays`: larger day number, later calendar
date. -/
theorem fromDays_strictMono {z1 z2 : Int} (h : z1 < z2) :
    dateStrLt (fromDays z1) (fromDays z2) = true := by
  obtain ⟨hn1, hr1⟩ := fromDays_correct z1
  obtain ⟨hn2, hr2⟩ := fromDays_correct z2
  by_contra hcon
  rw [Bool.not_eq_true] at hcon
  by_cases h21 : dateStrLt (fromDays z2) (fromDays z1) = true
  · have := daysFromCivil_strictMono hn2 hn1 h21
    omega
  · rw [Bool.not_eq_true] at h21
    have heq := dateStr_eq_of_not_lt hcon h21
    rw [heq] at hr1
    omega

/-- On normalized dates, `fromDays` is also a left inverse of
`daysFromCivil`. -/
theorem fromDays_daysFromCivil {t : DateYMD} (ht : Normalized t) :
    fromDays (daysFromCivil t.year t.month t.day) = t := by
  obtain ⟨hn, hr⟩ := fromDays_correct (daysFromCivil t.year t.month t.day)
  by_cases h1 : dateStrLt (fromDays (daysFromCivil t.year t.month t.day)) t = true
  · have := daysFromCivil_strictMono hn ht h1
    omega
  · by_cases h2 : dateStrLt t (fromDays (daysFromCivil t.year t.month t.day)) = true
    · have := daysFromCivil_strictMono ht hn h2
      omega
    · rw [Bool.not_eq_true] at h1 h2
      exact dateStr_eq_of_not_lt h1 h2

/-! ### Bridging `compareDateStrings` and the date order -/

theorem compare_lt_iff (a b : DateYMD) :
    compareDateStrings a b < 0 ↔ dateStrLt a b = true := by
  unfold compareDateStrings
  split_ifs with h1 h2
  · simp [h1]
  · simp [h1]
  · simp [h1]

theorem compare_nonneg_iff (a b : DateYMD) :
    0 ≤ compareDateStrings a b ↔ dateStrLt a b = false := by
  unfold compareDateStrings
  split_ifs with h1 h2
  · simp [h1]
  · rw [Bool.not_eq_true] at h1
    simp [h1]
  · rw [Bool.not_eq_true] at h1
    simp [h1]

theorem compare_pos_iff (a b : DateYMD) :
    0 < compareDateStrings a b ↔ (dateStrLt a b = false ∧ dateStrLt b a = true) := by
  unfold compareDateStrings
  split_ifs with h1 h2
  · simp [h1]
  · rw [Bool.not_eq_true] at h1
    simp [h1, h2]
  · rw [Bool.not_eq_true] at h1 h2
    simp [h1, h2]

theorem compare_nonpos_iff (a b : DateYMD) :
    compareDateStrings a b ≤ 0 ↔ (dateStrLt a b = true ∨ dateStrLt b a = false) := by
  unfold compareDateStrings
  split_ifs with h1 h2
  · simp [h1]
  · rw [Bool.not_eq_true] at h1
    simp [h1, h2]
  · rw [Bool.not_eq_true] at h1 h2
    simp [h1, h2]

/-! ### Generator lemmas -/

theorem isSome_optionMap {α β : Type} (f : α → β) (o : Option α) :
    (o.map f).isSome = o.isSome := by
  cases o <;> rfl

/-- A monthly rule with no pattern object never produces a candidate date,
so the monthly loop emits nothing. -/
theorem monthlyLoop_no_pattern (sd : DateYMD) (ed : Option DateYMD) (mo : Option Int)
    (ud : DateYMD) (sy : Int) :
    ∀ (fuel : Nat) (year month count : Int) (acc : List DateYMD),
      monthlyLoop sd ed mo ud none sy fuel year month count acc = acc := by
  intro fuel
  induction fuel with
  | zero => intro year month count acc; rfl
  | succ n ih =>
    intro year month count acc
    simp only [monthlyLoop, monthlyDate]
    split_ifs
    · rfl
    · exact ih _ _ _ _

theorem dateStrLt_irrefl (a : DateYMD) : dateStrLt a a = false := by
  simp only [dateStrLt, decide_eq_false_iff_not]
  omega

theorem dateStrLt_asymm {a b : DateYMD} (h : dateStrLt a b = true) :
    dateStrLt b a = false := by
  simp only [dateStrLt, decide_eq_true_eq] at h
  simp only [dateStrLt, decide_eq_false_iff_not]
  omega

theorem dateStrLt_trans {a b c : DateYMD} (h1 : dateStrLt a b = true)
    (h2 : dateStrLt b c = true) : dateStrLt a c = true := by
  simp only [dateStrLt, decide_eq_true_eq] at h1 h2 ⊢
  omega

theorem compare_self (a : DateYMD) : compareDateStrings a a = 0 := by
  simp [compareDateStrings, dateStrLt_irrefl]

/-- `addDaysToDateString` acts on day numbers by addition. -/
theorem addDays_fromDays (z n : Int) :
    addDaysToDateString (fromDays z) n = fromDays (z + n) := by
  unfold addDaysToDateString
  rw [daysFromCivil_add, (fromDays_correct z).2]

/-- `addWeeksToDateString` acts on day numbers by adding `7 * weeks`. -/
theorem addWeeks_fromDays (z w : Int) :
    addWeeksToDateString (fromDays z) w = fromDays (z + w * 7) := by
  unfold addWeeksToDateString
  exact addDays_fromDays z (w * 7)

/-- A later or equal day number compares `>= 0` against an earlier one. -/
theorem fromDays_le_nonneg {z1 z2 : Int} (h : z1 ≤ z2) :
    0 ≤ compareDateStrings (fromDays z2) (fromDays z1) := by
  rcases eq_or_lt_of_le h with he | hlt
  · rw [he, compare_self]
  · rw [compare_nonneg_iff]
    exact dateStrLt_asymm (fromDays_strictMono hlt)

theorem pastEnd_le {ed : Option DateYMD} {d : DateYMD} (h : pastEnd ed d = false) :
    ∀ e, ed = some e → compareDateStrings d e ≤ 0 := by
  intro e he
  subst he
  simp only [pastEnd, decide_eq_false_iff_not] at h
  omega

theorem maxOcc_lt {mo : Option Int} {count : Int} (h : maxOccReached mo count = false)
    (m : Int) (hm : mo = some m) (hpos : 0 < m) : count < m := by
  subst hm
  by_contra hc
  have ht : maxOccReached (some m) count = true := by
    simp only [maxOccReached, Bool.and_eq_true, decide_eq_true_eq]
    omega
  rw [ht] at h
  exact Bool.noConfusion h

/-- Loop invariant of the inner weekly day loop: accumulated dates satisfy
the three window bounds, the running count equals the accumulator length,
and the count respects a positive maximum. -/
theorem pushDays_bounds (sd : DateYMD) (ed : Option DateYMD) (mo : Option Int)
    (ud : DateYMD) (cws : DateYMD) (days : List Int) :
    ∀ (acc : List DateYMD) (count : Int),
      (∀ x ∈ acc, 0 ≤ compareDateStrings x sd ∧
        (∀ e, ed = some e → compareDateStrings x e ≤ 0) ∧
        compareDateStrings x ud ≤ 0) →
      count = (acc.length : Int) →
      (∀ x ∈ (pushDays sd ed mo ud cws days acc count).1,
        0 ≤ compareDateStrings x sd ∧
        (∀ e, ed = some e → compareDateStrings x e ≤ 0) ∧
        compareDateStrings x ud ≤ 0) ∧
      (pushDays sd ed mo ud cws days acc count).2.1 =
        ((pushDays sd ed mo ud cws days acc count).1.length : Int) ∧
      (∀ m, mo = some m → 0 < m → count ≤ m →
        (pushDays sd ed mo ud cws days acc count).2.1 ≤ m) := by
  induction days with
  | nil =>
    intro acc count hacc hcount
    exact ⟨hacc, hcount, fun m hm hpos hle => hle⟩
  | cons w rest ih =>
    intro acc count hacc hcount
    simp only [pushDays]
    split_ifs with h1 h2 h3 h4
    · exact ih acc count hacc hcount
    · exact ⟨hacc, hcount, fun m hm hpos hle => hle⟩
    · exact ⟨hacc, hcount, fun m hm hpos hle => hle⟩
    · exact ⟨hacc, hcount, fun m hm hpos hle => hle⟩
    · rw [Bool.not_eq_true] at h2 h3
      have hacc2 : ∀ x ∈ acc ++ [addDaysToDateString cws w],
          0 ≤ compareDateStrings x sd ∧
          (∀ e, ed = some e → compareDateStrings x e ≤ 0) ∧
          compareDateStrings x ud ≤ 0 := by
        intro x hx
        rcases List.mem_append.mp hx with hx | hx
        · exact hacc x hx
        · rcases List.mem_singleton.mp hx with rfl
          exact ⟨by omega, pastEnd_le h2, by omega⟩
      have hcount2 : count + 1 = ((acc ++ [addDaysToDateString cws w]).length : Int) := by
        simp [hcount]
      obtain ⟨c1, c2, c3⟩ := ih (acc ++ [addDaysToDateString cws w]) (count + 1) hacc2 hcount2
      exact ⟨c1, c2, fun m hm hpos hle => c3 m hm hpos (by have := maxOcc_lt h3 m hm hpos; omega)⟩

/-- Loop invariant of the weekly/biweekly outer loop: window bounds and
maximum-count bound for the final date list. -/
theorem weeklyLoop_bounds (sd : DateYMD) (ed : Option DateYMD) (mo : Option Int)
    (ud : DateYMD) (days : List Int) (step : Int) (wsd : DateYMD) :
    ∀ (fuel : Nat) (weekOffset count : Int) (acc : List DateYMD),
      (∀ x ∈ acc, 0 ≤ compareDateStrings x sd ∧
        (∀ e, ed = some e → compareDateStrings x e ≤ 0) ∧
        compareDateStrings x ud ≤ 0) →
      count = (acc.length : Int) →
      (∀ x ∈ weeklyLoop sd ed mo ud days step wsd fuel weekOffset count acc,
        0 ≤ compareDateStrings x sd ∧
        (∀ e, ed = some e → compareDateStrings x e ≤ 0) ∧
        compareDateStrings x ud ≤ 0) ∧
      (∀ m, mo = some m → 0 < m → count ≤ m →
        ((weeklyLoop sd ed mo ud days step wsd fuel weekOffset count acc).length : Int) ≤ m) := by
  intro fuel
  induction fuel with
  | zero =>
    intro weekOffset count acc hacc hcount
    exact ⟨hacc, fun m hm hpos hle => by rw [show ((weeklyLoop sd ed mo ud days step wsd
      0 weekOffset count acc).length : Int) = (acc.length : Int) from rfl]; omega⟩
  | succ n ih =>
    intro weekOffset count acc hacc hcount
    obtain ⟨p1, p2, p3⟩ := pushDays_bounds sd ed mo ud
      (addWeeksToDateString wsd (weekOffset * step)) days acc count hacc hcount
    simp only [weeklyLoop]
    rcases hpd : pushDays sd ed mo ud (addWeeksToDateString wsd (weekOffset * step))
        days acc count with ⟨acc2, count2, stp⟩
    rw [hpd] at p1 p2 p3
    dsimp only at p1 p2 p3
    cases stp
    · dsimp only
      split_ifs with hw
      · exact ⟨p1, fun m hm hpos hle => by
          have := p3 m hm hpos hle
          omega⟩
      · exact ih (weekOffset + 1) count2 acc2 p1 p2 |>.imp id
          (fun c3 m hm hpos hle => c3 m hm hpos (p3 m hm hpos hle))
    · dsimp only
      exact ⟨p1, fun m hm hpos hle => by
        have := p3 m hm hpos hle
        omega⟩

/-- Loop invariant of the degenerate weekly/biweekly loop.  The running date
needs the day-number view to show it never moves before the start date. -/
theorem simpleLoop_bounds (sd : DateYMD) (ed : Option DateYMD) (mo : Option Int)
    (ud : DateYMD) (step : Int) (hstep : 1 ≤ step) (zsd : Int) (hsd : sd = fromDays zsd) :
    ∀ (fuel : Nat) (cur : DateYMD) (count : Int) (acc : List DateYMD) (zc : Int),
      cur = fromDays zc → zsd ≤ zc →
      (∀ x ∈ acc, 0 ≤ compareDateStrings x sd ∧
        (∀ e, ed = some e → compareDateStrings x e ≤ 0) ∧
        compareDateStrings x ud ≤ 0) →
      count = (acc.length : Int) →
      (∀ x ∈ simpleLoop ed mo ud step fuel cur count acc,
        0 ≤ compareDateStrings x sd ∧
        (∀ e, ed = some e → compareDateStrings x e ≤ 0) ∧
        compareDateStrings x ud ≤ 0) ∧
      (∀ m, mo = some m → 0 < m → count ≤ m →
        ((simpleLoop ed mo ud step fuel cur count acc).length : Int) ≤ m) := by
  intro fuel
  induction fuel with
  | zero =>
    intro cur count acc zc hcur hz hacc hcount
    exact ⟨hacc, fun m hm hpos hle => by
      rw [show ((simpleLoop ed mo ud step 0 cur count acc).length : Int) =
        (acc.length : Int) from rfl]; omega⟩
  | succ n ih =>
    intro cur count acc zc hcur hz hacc hcount
    simp only [simpleLoop]
    split_ifs with h1 h2 h3 h4
    · exact ⟨hacc, fun m hm hpos hle => by rw [hcount] at hle; exact_mod_cast hle⟩
    · exact ⟨hacc, fun m hm hpos hle => by rw [hcount] at hle; exact_mod_cast hle⟩
    · exact ⟨hacc, fun m hm hpos hle => by rw [hcount] at hle; exact_mod_cast hle⟩
    · -- push, then stop at the safety limit
      rw [Bool.not_eq_true] at h1 h2
      refine ⟨?_, ?_⟩
      · intro x hx
        rcases List.mem_append.mp hx with hx | hx
        · exact hacc x hx
        · rcases List.mem_singleton.mp hx with rfl
          exact ⟨by rw [hcur, hsd]; exact fromDays_le_nonneg hz, pastEnd_le h1, by omega⟩
      · intro m hm hpos hle
        have := maxOcc_lt h2 m hm hpos
        simp only [List.length_append, List.length_singleton]
        push_cast
        omega
    · -- push and continue
      rw [Bool.not_eq_true] at h1 h2
      have hacc2 : ∀ x ∈ acc ++ [cur],
          0 ≤ compareDateStrings x sd ∧
          (∀ e, ed = some e → compareDateStrings x e ≤ 0) ∧
          compareDateStrings x ud ≤ 0 := by
        intro x hx
        rcases List.mem_append.mp hx with hx | hx
        · exact hacc x hx
        · rcases List.mem_singleton.mp hx with rfl
          exact ⟨by rw [hcur, hsd]; exact fromDays_le_nonneg hz, pastEnd_le h1, by omega⟩
      have hcount2 : count + 1 = ((acc ++ [cur]).length : Int) := by simp [hcount]
      have hnext : addWeeksToDateString cur step = fromDays (zc + step * 7) := by
        rw [hcur, addWeeks_fromDays]
      obtain ⟨c1, c2⟩ := ih (addWeeksToDateString cur step) (count + 1) (acc ++ [cur])
        (zc + step * 7) hnext (by omega) hacc2 hcount2
      refine ⟨c1, fun m hm hpos hle => c2 m hm hpos ?_⟩
      have := maxOcc_lt h2 m hm hpos
      omega

/-- Loop invariant of the monthly loop. -/
theorem monthlyLoop_bounds (sd : DateYMD) (ed : Option DateYMD) (mo : Option Int)
    (ud : DateYMD) (p : Option MonthlyPattern) (sy : Int) :
    ∀ (fuel : Nat) (year month count : Int) (acc : List DateYMD),
      (∀ x ∈ acc, 0 ≤ compareDateStrings x sd ∧
        (∀ e, ed = some e → compareDateStrings x e ≤ 0) ∧
        compareDateStrings x ud ≤ 0) →
      count = (acc.length : Int) →
      (∀ x ∈ monthlyLoop sd ed mo ud p sy fuel year month count acc,
        0 ≤ compareDateStrings x sd ∧
        (∀ e, ed = some e → compareDateStrings x e ≤ 0) ∧
        compareDateStrings x ud ≤ 0) ∧
      (∀ m, mo = some m → 0 < m → count ≤ m →
        ((monthlyLoop sd ed mo ud p sy fuel year month count acc).length : Int) ≤ m) := by
  intro fuel
  induction fuel with
  | zero =>
    intro year month count acc hacc hcount
    exact ⟨hacc, fun m hm hpos hle => by
      rw [show ((monthlyLoop sd ed mo ud p sy 0 year month count acc).length : Int) =
        (acc.length : Int) from rfl]; omega⟩
  | succ n ih =>
    intro year month count acc hacc hcount
    simp only [monthlyLoop]
    rcases hmd : monthlyDate p year month with _ | dateStr
    · dsimp only
      split_ifs with hcap
      · exact ⟨hacc, fun m hm hpos hle => by rw [hcount] at hle; exact_mod_cast hle⟩
      · exact ih _ _ count acc hacc hcount
    · dsimp only
      split_ifs with h1 hcap h2 h3 h4 hcap2
      · exact ⟨hacc, fun m hm hpos hle => by rw [hcount] at hle; exact_mod_cast hle⟩
      · exact ih _ _ count acc hacc hcount
      · exact ⟨hacc, fun m hm hpos hle => by rw [hcount] at hle; exact_mod_cast hle⟩
      · exact ⟨hacc, fun m hm hpos hle => by rw [hcount] at hle; exact_mod_cast hle⟩
      · exact ⟨hacc, fun m hm hpos hle => by rw [hcount] at hle; exact_mod_cast hle⟩
      · -- push, then stop at the ten-year limit
        rw [Bool.not_eq_true] at h2 h3
        refine ⟨?_, ?_⟩
        · intro x hx
          rcases List.mem_append.mp hx with hx | hx
          · exact hacc x hx
          · rcases List.mem_singleton.mp hx with rfl
            exact ⟨by omega, pastEnd_le h2, by omega⟩
        · intro m hm hpos hle
          have := maxOcc_lt h3 m hm hpos
          simp only [List.length_append, List.length_singleton]
          push_cast
          omega
      · -- push and continue
        rw [Bool.not_eq_true] at h2 h3
        have hacc2 : ∀ x ∈ acc ++ [dateStr],
            0 ≤ compareDateStrings x sd ∧
            (∀ e, ed = some e → compareDateStrings x e ≤ 0) ∧
            compareDateStrings x ud ≤ 0 := by
          intro x hx
          rcases List.mem_append.mp hx with hx | hx
          · exact hacc x hx
          · rcases List.mem_singleton.mp hx with rfl
            exact ⟨by omega, pastEnd_le h2, by omega⟩
        have hcount2 : count + 1 = ((acc ++ [dateStr]).length : Int) := by simp [hcount]
        obtain ⟨c1, c2⟩ := ih _ _ (count + 1) (acc ++ [dateStr]) hacc2 hcount2
        refine ⟨c1, fun m hm hpos hle => c2 m hm hpos ?_⟩
        have := maxOcc_lt h3 m hm hpos
        omega

/-- Loop invariant of the inner weekly day loop for ordering: with the week
start at day number `Z` and remaining weekdays at least `lo` (all at most
6), strictly ascending, every emitted date has a day number below `Z + 7`
and the accumulator stays strictly ascending. -/
theorem pushDays_sorted (sd : DateYMD) (ed : Option DateYMD) (mo : Option Int)
    (ud : DateYMD) (Z : Int) (days : List Int) :
    ∀ (lo : Int) (acc : List DateYMD) (count : Int),
      lo ≤ 7 →
      (∀ w ∈ days, lo ≤ w ∧ w ≤ 6) →
      days.Pairwise (· < ·) →
      acc.Pairwise (fun a b => dateStrLt a b = true) →
      (∀ x ∈ acc, ∃ zx, x = fromDays zx ∧ zx < Z + lo) →
      (pushDays sd ed mo ud (fromDays Z) days acc count).1.Pairwise
        (fun a b => dateStrLt a b = true) ∧
      (∀ x ∈ (pushDays sd ed mo ud (fromDays Z) days acc count).1,
        ∃ zx, x = fromDays zx ∧ zx < Z + 7) := by
  induction days with
  | nil =>
    intro lo acc count hlo hdays hds haccS haccB
    refine ⟨haccS, fun x hx => ?_⟩
    obtain ⟨zx, h1, h2⟩ := haccB x hx
    exact ⟨zx, h1, by omega⟩
  | cons w rest ih =>
    intro lo acc count hlo hdays hds haccS haccB
    have hw := hdays w (List.mem_cons_self w rest)
    have hrestLt := (List.pairwise_cons.mp hds).1
    have hrestPw := (List.pairwise_cons.mp hds).2
    have hrest : ∀ w2 ∈ rest, w + 1 ≤ w2 ∧ w2 ≤ 6 := by
      intro w2 hw2
      exact ⟨by have := hrestLt w2 hw2; omega, (hdays w2 (List.mem_cons_of_mem w hw2)).2⟩
    simp only [pushDays, addDays_fromDays]
    split_ifs with h1 h2 h3 h4
    · refine ih (w + 1) acc count (by omega) hrest hrestPw haccS ?_
      intro x hx
      obtain ⟨zx, e1, e2⟩ := haccB x hx
      exact ⟨zx, e1, by omega⟩
    · refine ⟨haccS, fun x hx => ?_⟩
      obtain ⟨zx, e1, e2⟩ := haccB x hx
      exact ⟨zx, e1, by omega⟩
    · refine ⟨haccS, fun x hx => ?_⟩
      obtain ⟨zx, e1, e2⟩ := haccB x hx
      exact ⟨zx, e1, by omega⟩
    · refine ⟨haccS, fun x hx => ?_⟩
      obtain ⟨zx, e1, e2⟩ := haccB x hx
      exact ⟨zx, e1, by omega⟩
    · have hnewS : (acc ++ [fromDays (Z + w)]).Pairwise
          (fun a b => dateStrLt a b = true) := by
        rw [List.pairwise_append]
        refine ⟨haccS, List.pairwise_singleton _ _, ?_⟩
        intro a ha b hb
        rcases List.mem_singleton.mp hb with rfl
        obtain ⟨za, hza, hzalt⟩ := haccB a ha
        rw [hza]
        exact fromDays_strictMono (by omega)
      have hnewB : ∀ x ∈ acc ++ [fromDays (Z + w)],
          ∃ zx, x = fromDays zx ∧ zx < Z + (w + 1) := by
        intro x hx
        rcases List.mem_append.mp hx with hx | hx
        · obtain ⟨zx, e1, e2⟩ := haccB x hx
          exact ⟨zx, e1, by omega⟩
        · rcases List.mem_singleton.mp hx with rfl
          exact ⟨Z + w, rfl, by omega⟩
      exact ih (w + 1) _ _ (by omega) hrest hrestPw hnewS hnewB

/-- The weekly/biweekly outer loop keeps the date list strictly ascending:
each week's candidates exceed everything already emitted. -/
theorem weeklyLoop_sorted (sd : DateYMD) (ed : Option DateYMD) (mo : Option Int)
    (ud : DateYMD) (days : List Int) (step : Int) (hstep : 1 ≤ step)
    (hdays : ∀ w ∈ days, 0 ≤ w ∧ w ≤ 6) (hds : days.Pairwise (· < ·)) (Z0 : Int) :
    ∀ (fuel : Nat) (weekOffset count : Int) (acc : List DateYMD) (W : Int),
      W = Z0 + weekOffset * step * 7 →
      acc.Pairwise (fun a b => dateStrLt a b = true) →
      (∀ x ∈ acc, ∃ zx, x = fromDays zx ∧ zx < W) →
      (weeklyLoop sd ed mo ud days step (fromDays Z0) fuel weekOffset count acc).Pairwise
        (fun a b => dateStrLt a b = true) := by
  intro fuel
  induction fuel with
  | zero => intro weekOffset count acc W hW haccS haccB; exact haccS
  | succ n ih =>
    intro weekOffset count acc W hW haccS haccB
    have hcws : addWeeksToDateString (fromDays Z0) (weekOffset * step) =
        fromDays (Z0 + weekOffset * step * 7) := addWeeks_fromDays Z0 (weekOffset * step)
    simp only [weeklyLoop, hcws]
    have hbase : ∀ x ∈ acc, ∃ zx, x = fromDays zx ∧ zx < Z0 + weekOffset * step * 7 + 0 := by
      intro x hx
      obtain ⟨zx, e1, e2⟩ := haccB x hx
      refine ⟨zx, e1, ?_⟩
      omega
    obtain ⟨p1, p2⟩ := pushDays_sorted sd ed mo ud (Z0 + weekOffset * step * 7) days 0
      acc count (by omega) (fun w hw => ⟨(hdays w hw).1, (hdays w hw).2⟩) hds haccS hbase
    rcases hpd : pushDays sd ed mo ud (fromDays (Z0 + weekOffset * step * 7)) days acc count
      with ⟨acc2, count2, stp⟩
    rw [hpd] at p1 p2
    dsimp only at p1 p2
    cases stp
    · dsimp only
      split_ifs with hwk
      · exact p1
      · refine ih (weekOffset + 1) count2 acc2 (Z0 + (weekOffset + 1) * step * 7) rfl p1 ?_
        intro x hx
        obtain ⟨zx, e1, e2⟩ := p2 x hx
        refine ⟨zx, e1, ?_⟩
        have hexp : Z0 + (weekOffset + 1) * step * 7 =
            Z0 + weekOffset * step * 7 + step * 7 := by ring
        rw [hexp]
        omega
    · exact p1

/-- The degenerate weekly/biweekly loop keeps the date list strictly
ascending: the running date advances by whole positive weeks. -/
theorem simpleLoop_sorted (ed : Option DateYMD) (mo : Option Int) (ud : DateYMD)
    (step : Int) (hstep : 1 ≤ step) :
    ∀ (fuel : Nat) (cur : DateYMD) (count : Int) (acc : List DateYMD) (zc : Int),
      cur = fromDays zc →
      acc.Pairwise (fun a b => dateStrLt a b = true) →
      (∀ x ∈ acc, ∃ zx, x = fromDays zx ∧ zx < zc) →
      (simpleLoop ed mo ud step fuel cur count acc).Pairwise
        (fun a b => dateStrLt a b = true) := by
  intro fuel
  induction fuel with
  | zero => intro cur count acc zc hcur haccS haccB; exact haccS
  | succ n ih =>
    intro cur count acc zc hcur haccS haccB
    simp only [simpleLoop]
    split_ifs with h1 h2 h3 h4
    · exact haccS
    · exact haccS
    · exact haccS
    all_goals
      have hnewS : (acc ++ [cur]).Pairwise (fun a b => dateStrLt a b = true) := by
        rw [List.pairwise_append]
        refine ⟨haccS, List.pairwise_singleton _ _, ?_⟩
        intro a ha b hb
        rcases List.mem_singleton.mp hb with rfl
        obtain ⟨za, hza, hzalt⟩ := haccB a ha
        rw [hza, hcur]
        exact fromDays_strictMono hzalt
    · exact hnewS
    · refine ih (addWeeksToDateString cur step) (count + 1) (acc ++ [cur])
        (zc + step * 7) (by rw [hcur, addWeeks_fromDays]) hnewS ?_
      intro x hx
      rcases List.mem_append.mp hx with hx | hx
      · obtain ⟨zx, e1, e2⟩ := haccB x hx
        exact ⟨zx, e1, by omega⟩
      · rcases List.mem_singleton.mp hx with rfl
        exact ⟨zc, hcur, by omega⟩

/-- A monthly candidate date carries the loop's current year and month. -/
theorem monthlyDate_components {p : Option MonthlyPattern} {y m : Int} {d : DateYMD}
    (h : monthlyDate p y m = some d) : d.year = y ∧ d.month = m := by
  rcases p with _ | ⟨pt, pd, pw, po⟩
  · exact Option.noConfusion h
  · cases pt
    · rcases pd with _ | dd
      · exact Option.noConfusion h
      · simp only [monthlyDate] at h
        split_ifs at h
        injection h with h2
        subst h2
        exact ⟨rfl, rfl⟩
    · rcases pw with _ | w
      · exact Option.noConfusion h
      · rcases po with _ | o
        · exact Option.noConfusion h
        · simp only [monthlyDate, getNthWeekdayOfMonth] at h
          split_ifs at h <;> rw [Option.map_eq_some'] at h <;>
            obtain ⟨dd, _, hdd⟩ := h <;> subst hdd <;> exact ⟨rfl, rfl⟩

/-- Advancing the month wraps into range and increments the month key. -/
theorem monthlyNext_spec (y m : Int) (h0 : 0 ≤ m) (h1 : m ≤ 11) :
    0 ≤ (monthlyNext y m).2 ∧ (monthlyNext y m).2 ≤ 11 ∧
    12 * (monthlyNext y m).1 + (monthlyNext y m).2 = 12 * y + m + 1 := by
  unfold monthlyNext
  split_ifs with h <;> dsimp only <;> omega

/-- The monthly loop keeps the date list strictly ascending: candidates
carry strictly increasing (year, month) keys. -/
theorem monthlyLoop_sorted (sd : DateYMD) (ed : Option DateYMD) (mo : Option Int)
    (ud : DateYMD) (p : Option MonthlyPattern) (sy : Int) :
    ∀ (fuel : Nat) (year month count : Int) (acc : List DateYMD),
      0 ≤ month → month ≤ 11 →
      acc.Pairwise (fun a b => dateStrLt a b = true) →
      (∀ x ∈ acc, 0 ≤ x.month ∧ x.month ≤ 11 ∧
        12 * x.year + x.month < 12 * year + month) →
      (monthlyLoop sd ed mo ud p sy fuel year month count acc).Pairwise
        (fun a b => dateStrLt a b = true) := by
  intro fuel
  induction fuel with
  | zero => intro year month count acc h0 h1 haccS haccB; exact haccS
  | succ n ih =>
    intro year month count acc h0 h1 haccS haccB
    have hnx := monthlyNext_spec year month h0 h1
    simp only [monthlyLoop]
    rcases hmd : monthlyDate p year month with _ | dateStr
    · dsimp only
      split_ifs with hcap
      · exact haccS
      · refine ih _ _ count acc hnx.1 hnx.2.1 haccS ?_
        intro x hx
        obtain ⟨e1, e2, e3⟩ := haccB x hx
        exact ⟨e1, e2, by omega⟩
    · obtain ⟨hdy, hdm⟩ := monthlyDate_components hmd
      dsimp only
      have hnewS : (acc ++ [dateStr]).Pairwise (fun a b => dateStrLt a b = true) := by
        rw [List.pairwise_append]
        refine ⟨haccS, List.pairwise_singleton _ _, ?_⟩
        intro a ha b hb
        rcases List.mem_singleton.mp hb with rfl
        obtain ⟨e1, e2, e3⟩ := haccB a ha
        simp only [dateStrLt, decide_eq_true_eq]
        rw [hdy, hdm]
        omega
      have hnewB : ∀ x ∈ acc ++ [dateStr],
          0 ≤ x.month ∧ x.month ≤ 11 ∧
          12 * x.year + x.month < 12 * (monthlyNext year month).1 +
            (monthlyNext year month).2 := by
        intro x hx
        rcases List.mem_append.mp hx with hx | hx
        · obtain ⟨e1, e2, e3⟩ := haccB x hx
          exact ⟨e1, e2, by omega⟩
        · rcases List.mem_singleton.mp hx with rfl
          rw [hdy, hdm]
          exact ⟨h0, h1, by omega⟩
      split_ifs with h1a hcap h2a h3a h4a hcap2
      · exact haccS
      · refine ih _ _ count acc hnx.1 hnx.2.1 haccS ?_
        intro x hx
        obtain ⟨e1, e2, e3⟩ := haccB x hx
        exact ⟨e1, e2, by omega⟩
      · exact haccS
      · exact haccS
      · exact haccS
      · exact hnewS
      · exact ih _ _ (count + 1) (acc ++ [dateStr]) hnx.1 hnx.2.1 hnewS hnewB

/-- A strictly ascending date list has no duplicates. -/
theorem pairwise_lt_nodup {l : List DateYMD}
    (h : l.Pairwise (fun a b => dateStrLt a b = true)) : l.Nodup := by
  refine h.imp ?_
  intro a b hab he
  subst he
  rw [dateStrLt_irrefl] at hab
  exact Bool.noConfusion hab

/-- A sorted list with no duplicates is strictly sorted. -/
theorem sorted_nodup_strict {l : List Int} (h1 : l.Pairwise (· ≤ ·)) (h2 : l.Nodup) :
    l.Pairwise (· < ·) :=
  (h1.and h2).imp (fun hab => lt_of_le_of_ne hab.1 hab.2)

/-- Permutations have the same ascending insertion sort. -/
theorem insertionSort_perm_eq {l1 l2 : List Int} (h : l1.Perm l2) :
    l1.insertionSort (· ≤ ·) = l2.insertionSort (· ≤ ·) :=
  List.eq_of_perm_of_sorted
    ((List.perm_insertionSort _ l1).trans (h.trans (List.perm_insertionSort _ l2).symm))
    (List.sorted_insertionSort _ l1) (List.sorted_insertionSort _ l2)

/-! ### Claim theorems -/

/-- C8: `addMonthsToDateString` always clamps the day to the target month's
length (so a source day that does not exist in the target month becomes that
month's last day), and `addMonths("2025-01-31", 1)` is `"2025-02-28"`. -/
theorem addMonths_clamps :
    (∀ (t : DateYMD) (months : Int),
      (addMonthsToDateString t months).day =
        min t.day (getDaysInMonth (addMonthsToDateString t months).year
          (addMonthsToDateString t months).month)) ∧
    addMonthsToDateString ⟨2025, 0, 31⟩ 1 = ⟨2025, 1, 28⟩ ∧
    formatDateString 2025 0 31 = "2025-01-31" ∧
    formatDateString 2025 1 28 = "2025-02-28" :=
  ⟨fun _ _ => rfl, by decide, by decide, by decide⟩

set_option maxRecDepth 40000 in
/-- C7: the weekly Tue/Thu rule starting 2026-01-06 with `maxOccurrences = 4`
and horizon 2026-12-31 generates exactly the four expected dates. -/
theorem generateOccurrences_tueThu_scenario :
    (generateOccurrences ⟨.weekly, some [2, 4], none⟩ ⟨2026, 0, 6⟩ none (some 4)
        ⟨2026, 11, 31⟩).map (fun t => formatDateString t.year t.month t.day) =
      ["2026-01-06", "2026-01-08", "2026-01-13", "2026-01-15"] := by
  decide

set_option maxRecDepth 40000 in
/-- C1 counterexample: a future instance flagged `isSeriesException = true`
but with no RSVPs *is* deleted by the `regenerate-instances` action — the
deletion pass never consults the exception flag, contradicting the claim
that an exception instance is never among the deleted instances. -/
theorem regenerate_deletes_exception_instance :
    regenerateDeleted [⟨7, 3, ⟨2026, 0, 15⟩, true, false⟩] 3 ⟨2026, 0, 1⟩ =
      [⟨7, 3, ⟨2026, 0, 15⟩, true, false⟩] ∧
    (⟨7, 3, ⟨2026, 0, 15⟩, true, false⟩ : RegenInstance).isSeriesException = true ∧
    (⟨7, 3, ⟨2026, 0, 15⟩, true, false⟩ : RegenInstance).hasRsvps = false := by
  decide

/-- C1 (amended): the `regenerate-instances` deletion pass deletes exactly
the instances of the series dated today or later that have zero dependent
registrations — an instance with registrations is never deleted, but the
`isSeriesException` flag gives no protection. -/
theorem regenerateDeleted_iff (instances : List RegenInstance) (sid : Nat)
    (today : DateYMD) (i : RegenInstance) :
    i ∈ regenerateDeleted instances sid today ↔
      (i ∈ instances ∧ i.seriesId = sid ∧ 0 ≤ compareDateStrings i.date today ∧
        i.hasRsvps = false) := by
  simp only [regenerateDeleted, List.mem_filter, Bool.and_eq_true, decide_eq_true_eq,
    Bool.not_eq_true']
  tauto

set_option maxRecDepth 40000 in
/-- C2 (code bug evidence): for a series with `maxOccurrences = 2`, a weekly
Tuesday rule starting 2026-01-06 and one materialized instance, the first
`generate-more` run creates 2026-01-13; running it again with that create
already present in `existingDates` creates 2026-01-20 instead of nothing —
the occurrence count restarts at the latest instance, so repeat invocations
keep creating `maxOccurrences` fresh instances. -/
theorem reconcileExtend_maxOccurrences_repeat :
    reconcileExtend ⟨.weekly, some [2], none⟩ ⟨2026, 0, 6⟩ none (some 2)
        [⟨⟨2026, 0, 6⟩, ⟨2026, 0, 6⟩⟩] ⟨2026, 5, 30⟩ = [⟨2026, 0, 13⟩] ∧
    reconcileExtend ⟨.weekly, some [2], none⟩ ⟨2026, 0, 6⟩ none (some 2)
        [⟨⟨2026, 0, 6⟩, ⟨2026, 0, 6⟩⟩, ⟨⟨2026, 0, 13⟩, ⟨2026, 0, 13⟩⟩] ⟨2026, 5, 30⟩ =
      [⟨2026, 0, 20⟩] := by
  decide

set_option maxRecDepth 40000 in
/-- C5 counterexample: a monthly rule with neither pattern variant populated
passes the construction-time validation (no error is reported) and therefore
does reach the occurrence generator, which silently emits no dates — the
claim that such a rule is rejected at construction time is false. -/
theorem monthly_without_pattern_not_rejected :
    recurrenceValidationError (some ⟨.monthly, none, none⟩) = none ∧
    generateOccurrences ⟨.monthly, none, none⟩ ⟨2026, 0, 1⟩ none none ⟨2026, 11, 31⟩ =
      [] := by
  decide

/-- C5 (amended): construction-time validation rejects exactly an
unparseable rule and a weekly/biweekly rule with a missing or empty
`daysOfWeek`; every other malformed rule — in particular a monthly rule with
no pattern variant — passes validation and reaches the generator, which
produces no occurrences for a patternless monthly rule. -/
theorem recurrenceValidation_spec :
    (∀ parsed : Option RecurrenceRule,
      (recurrenceValidationError parsed).isSome = true ↔
        (parsed = none ∨ ∃ rule, parsed = some rule ∧
          (rule.frequency = .weekly ∨ rule.frequency = .biweekly) ∧
          (rule.daysOfWeek = none ∨ rule.daysOfWeek = some []))) ∧
    (∀ (dw : Option (List Int)) (startDate : DateYMD) (endDate : Option DateYMD)
        (maxOcc : Option Int) (untilDate : DateYMD),
      generateOccurrences ⟨.monthly, dw, none⟩ startDate endDate maxOcc untilDate = []) := by
  constructor
  · intro parsed
    cases parsed with
    | none => simp [recurrenceValidationError]
    | some rule =>
      simp only [recurrenceValidationError]
      split_ifs with h
      · simp only [Option.isSome_some, true_iff]
        exact Or.inr ⟨rule, rfl, h.1, h.2⟩
      · simp only [Option.isSome_none, Bool.false_eq_true, false_iff]
        rintro (hn | ⟨r, hr, hfreq, hdw⟩)
        · exact hn.elim
        · injection hr with hr2
          subst hr2
          exact h ⟨hfreq, hdw⟩
  · intro dw startDate endDate maxOcc untilDate
    exact monthlyLoop_no_pattern startDate endDate maxOcc untilDate startDate.year
      200 startDate.year startDate.month 0 []

/-- C6: for a monthly Nth-weekday rule, a month whose requested occurrence
does not exist is skipped — the loop advances to the next month with the
same occurrence count and emits nothing — and the concrete 5th-Friday rule
over the 12 months of 2026 produces strictly fewer than 12 dates. -/
theorem monthly_nth_weekday_skips :
    (∀ (sd : DateYMD) (ed : Option DateYMD) (mo : Option Int) (ud : DateYMD)
        (p : MonthlyPattern) (sy : Int) (fuel : Nat) (year month count : Int)
        (acc : List DateYMD) (w o : Int),
      p.type = .weekdayOfMonth → p.weekday = some w → p.occurrence = some o →
      getNthWeekdayOfMonth year month w o = none →
      monthlyLoop sd ed mo ud (some p) sy (fuel + 1) year month count acc =
        (if 10 < (monthlyNext year month).1 - sy then acc
         else monthlyLoop sd ed mo ud (some p) sy fuel
           (monthlyNext year month).1 (monthlyNext year month).2 count acc)) ∧
    (generateOccurrences ⟨.monthly, none, some ⟨.weekdayOfMonth, none, some 5, some 5⟩⟩
        ⟨2026, 0, 1⟩ none none ⟨2026, 11, 31⟩).length < 12 := by
  constructor
  · intro sd ed mo ud p sy fuel year month count acc w o htype hw ho hnone
    obtain ⟨pt, pd, pw, po⟩ := p
    dsimp only at htype hw ho
    subst htype hw ho
    have hmd : monthlyDate (some ⟨.weekdayOfMonth, pd, some w, some o⟩) year month = none := by
      simp only [monthlyDate]
      exact hnone
    simp only [monthlyLoop, hmd]
  · decide

set_option maxRecDepth 40000 in
/-- C6 witness: February 2026 has no 5th Friday, so the skip equation holds
there concretely. -/
theorem monthly_nth_weekday_skips_witness :
    monthlyLoop ⟨2026, 0, 1⟩ none none ⟨2026, 11, 31⟩
        (some ⟨.weekdayOfMonth, none, some 5, some 5⟩) 2026 8 2026 1 0 [] =
      (if 10 < (monthlyNext 2026 1).1 - 2026 then []
       else monthlyLoop ⟨2026, 0, 1⟩ none none ⟨2026, 11, 31⟩
         (some ⟨.weekdayOfMonth, none, some 5, some 5⟩) 2026 7
         (monthlyNext 2026 1).1 (monthlyNext 2026 1).2 0 []) :=
  monthly_nth_weekday_skips.1 ⟨2026, 0, 1⟩ none none ⟨2026, 11, 31⟩
    ⟨.weekdayOfMonth, none, some 5, some 5⟩ 2026 7 2026 1 0 [] 5 5 rfl rfl rfl
    (by decide)

/-- C10: the "last occurrence" search of `getNthWeekdayOfMonth` never comes
back empty for a weekday in 0..6 — every month contains at least one of each
weekday, so the `return null` after the downward scan is unreachable. -/
theorem getNthWeekdayOfMonth_last_isSome (year month weekday : Int)
    (h0 : 0 ≤ weekday) (h1 : weekday ≤ 6) :
    (getNthWeekdayOfMonth year month weekday (-1)).isSome = true := by
  have hdim := getDaysInMonth_bounds year month
  rw [show getNthWeekdayOfMonth year month weekday (-1) =
      (((List.range (getDaysInMonth year month).toNat).map
          (fun (k : Nat) => getDaysInMonth year month - (k : Int))).find?
        (fun dd => getDayOfWeek year month dd == weekday)).map
        (fun dd => (⟨year, month, dd⟩ : DateYMD)) from rfl]
  rw [isSome_optionMap, List.find?_isSome]
  obtain ⟨r, hr⟩ :
      ∃ r, r = (daysFromCivil year month (getDaysInMonth year month) + 4 - weekday) % 7 :=
    ⟨_, rfl⟩
  have hr06 : 0 ≤ r ∧ r ≤ 6 := by omega
  refine ⟨getDaysInMonth year month - r, ?_, ?_⟩
  · simp only [List.mem_map, List.mem_range]
    exact ⟨r.toNat, by omega, by omega⟩
  · have hlin : daysFromCivil year month (getDaysInMonth year month - r) =
        daysFromCivil year month (getDaysInMonth year month) + -r := by
      rw [show getDaysInMonth year month - r = getDaysInMonth year month + -r from by ring]
      exact daysFromCivil_add year month (getDaysInMonth year month) (-r)
    rw [beq_iff_eq]
    unfold getDayOfWeek
    rw [hlin]
    omega

/-- C3: every date generated by `generateOccurrences` is on or after the
start date, on or before the end date when one is set, and on or before the
`generateUntil` horizon (a boundary-exceeding candidate is never included);
and when a positive `maxOccurrences` is set the output never has more than
that many dates. -/
theorem generateOccurrences_bounds (rule : RecurrenceRule) (startDate : DateYMD)
    (endDate : Option DateYMD) (maxOccurrences : Option Int) (untilDate : DateYMD)
    (hstart : Normalized startDate) :
    (∀ d ∈ generateOccurrences rule startDate endDate maxOccurrences untilDate,
      0 ≤ compareDateStrings d startDate ∧
      (∀ e, endDate = some e → compareDateStrings d e ≤ 0) ∧
      compareDateStrings d untilDate ≤ 0) ∧
    (∀ m, maxOccurrences = some m → 0 < m →
      ((generateOccurrences rule startDate endDate maxOccurrences untilDate).length :
        Int) ≤ m) := by
  obtain ⟨freq, dw, mpat⟩ := rule
  have hz : startDate = fromDays (daysFromCivil startDate.year startDate.month
      startDate.day) := (fromDays_daysFromCivil hstart).symm
  cases freq
  case monthly =>
    dsimp only [generateOccurrences]
    obtain ⟨b1, b2⟩ := monthlyLoop_bounds startDate endDate maxOccurrences untilDate
      mpat startDate.year 200 startDate.year startDate.month 0 [] (by simp) rfl
    exact ⟨b1, fun m hm hpos => b2 m hm hpos (by omega)⟩
  case weekly =>
    dsimp only [generateOccurrences]
    cases dw with
    | none =>
      dsimp only
      obtain ⟨b1, b2⟩ := simpleLoop_bounds startDate endDate maxOccurrences untilDate
        (if (Frequency.weekly = Frequency.biweekly) then 2 else 1) (by decide)
        _ hz 600 startDate 0 [] _ hz (le_refl _) (by simp) rfl
      exact ⟨b1, fun m hm hpos => b2 m hm hpos (by omega)⟩
    | some days =>
      dsimp only
      by_cases hlen : 0 < days.length
      · rw [if_pos hlen]
        obtain ⟨b1, b2⟩ := weeklyLoop_bounds startDate endDate maxOccurrences untilDate
          (days.insertionSort (· ≤ ·)) _ _ 600 0 0 [] (by simp) rfl
        exact ⟨b1, fun m hm hpos => b2 m hm hpos (by omega)⟩
      · rw [if_neg hlen]
        obtain ⟨b1, b2⟩ := simpleLoop_bounds startDate endDate maxOccurrences untilDate
          (if (Frequency.weekly = Frequency.biweekly) then 2 else 1) (by decide)
          _ hz 600 startDate 0 [] _ hz (le_refl _) (by simp) rfl
        exact ⟨b1, fun m hm hpos => b2 m hm hpos (by omega)⟩
  case biweekly =>
    dsimp only [generateOccurrences]
    cases dw with
    | none =>
      dsimp only
      obtain ⟨b1, b2⟩ := simpleLoop_bounds startDate endDate maxOccurrences untilDate
        (if (Frequency.biweekly = Frequency.biweekly) then 2 else 1) (by decide)
        _ hz 600 startDate 0 [] _ hz (le_refl _) (by simp) rfl
      exact ⟨b1, fun m hm hpos => b2 m hm hpos (by omega)⟩
    | some days =>
      dsimp only
      by_cases hlen : 0 < days.length
      · rw [if_pos hlen]
        obtain ⟨b1, b2⟩ := weeklyLoop_bounds startDate endDate maxOccurrences untilDate
          (days.insertionSort (· ≤ ·)) _ _ 600 0 0 [] (by simp) rfl
        exact ⟨b1, fun m hm hpos => b2 m hm hpos (by omega)⟩
      · rw [if_neg hlen]
        obtain ⟨b1, b2⟩ := simpleLoop_bounds startDate endDate maxOccurrences untilDate
          (if (Frequency.biweekly = Frequency.biweekly) then 2 else 1) (by decide)
          _ hz 600 startDate 0 [] _ hz (le_refl _) (by simp) rfl
        exact ⟨b1, fun m hm hpos => b2 m hm hpos (by omega)⟩

set_option maxRecDepth 40000 in
/-- C3 witness: the Tue/Thu scenario start date is a valid calendar date and
its four-date output respects `maxOccurrences = 4`. -/
theorem generateOccurrences_bounds_witness :
    Normalized (⟨2026, 0, 6⟩ : DateYMD) ∧
    ((generateOccurrences ⟨.weekly, some [2, 4], none⟩ ⟨2026, 0, 6⟩ none (some 4)
        ⟨2026, 11, 31⟩).length : Int) ≤ 4 :=
  ⟨by decide,
    (generateOccurrences_bounds ⟨.weekly, some [2, 4], none⟩ ⟨2026, 0, 6⟩ none (some 4)
      ⟨2026, 11, 31⟩ (by decide)).2 4 rfl (by decide)⟩

/-- C4: for a rule whose `daysOfWeek` (when present) is a duplicate-free set
of weekday indices in 0..6, the generated date sequence is strictly
ascending with no duplicates; and the output is invariant under permuting
`daysOfWeek`, so within any week the requested weekdays are emitted in
ascending calendar order regardless of the order they were supplied in. -/
theorem generateOccurrences_sorted (rule : RecurrenceRule) (startDate : DateYMD)
    (endDate : Option DateYMD) (maxOccurrences : Option Int) (untilDate : DateYMD)
    (hstart : Normalized startDate)
    (hdays : ∀ l, rule.daysOfWeek = some l → l.Nodup ∧ ∀ w ∈ l, 0 ≤ w ∧ w ≤ 6) :
    ((generateOccurrences rule startDate endDate maxOccurrences untilDate).Pairwise
        (fun a b => compareDateStrings a b < 0) ∧
      (generateOccurrences rule startDate endDate maxOccurrences untilDate).Nodup) ∧
    (∀ l1 l2 : List Int, l1.Perm l2 →
      generateOccurrences ⟨rule.frequency, some l1, rule.monthlyPattern⟩ startDate
          endDate maxOccurrences untilDate =
        generateOccurrences ⟨rule.frequency, some l2, rule.monthlyPattern⟩ startDate
          endDate maxOccurrences untilDate) := by
  constructor
  · suffices hP : (generateOccurrences rule startDate endDate maxOccurrences
        untilDate).Pairwise (fun a b => dateStrLt a b = true) by
      exact ⟨hP.imp (fun hab => (compare_lt_iff _ _).mpr hab), pairwise_lt_nodup hP⟩
    obtain ⟨Z0, hZ0⟩ : ∃ z, startDate = fromDays z :=
      ⟨_, (fromDays_daysFromCivil hstart).symm⟩
    obtain ⟨freq, dw, mpat⟩ := rule
    dsimp only at hdays
    cases freq
    case monthly =>
      dsimp only [generateOccurrences]
      exact monthlyLoop_sorted startDate endDate maxOccurrences untilDate mpat
        startDate.year 200 startDate.year startDate.month 0 [] hstart.1 hstart.2.1
        List.Pairwise.nil (by simp)
    case weekly =>
      dsimp only [generateOccurrences]
      cases dw with
      | none =>
        dsimp only
        exact simpleLoop_sorted endDate maxOccurrences untilDate
          (if (Frequency.weekly = Frequency.biweekly) then 2 else 1) (by decide)
          600 startDate 0 [] Z0 hZ0 List.Pairwise.nil (by simp)
      | some days =>
        dsimp only
        obtain ⟨hnodup, hrange⟩ := hdays days rfl
        by_cases hlen : 0 < days.length
        · rw [if_pos hlen, hZ0, addDays_fromDays]
          exact weeklyLoop_sorted (fromDays Z0) endDate maxOccurrences untilDate
            (days.insertionSort (· ≤ ·))
            (if (Frequency.weekly = Frequency.biweekly) then 2 else 1) (by decide)
            (fun w hw => hrange w ((List.perm_insertionSort _ days).mem_iff.mp hw))
            (sorted_nodup_strict (List.sorted_insertionSort _ days)
              ((List.perm_insertionSort _ days).nodup_iff.mpr hnodup))
            _ 600 0 0 [] _ rfl List.Pairwise.nil (by simp)
        · rw [if_neg hlen]
          exact simpleLoop_sorted endDate maxOccurrences untilDate
            (if (Frequency.weekly = Frequency.biweekly) then 2 else 1) (by decide)
            600 startDate 0 [] Z0 hZ0 List.Pairwise.nil (by simp)
    case biweekly =>
      dsimp only [generateOccurrences]
      cases dw with
      | none =>
        dsimp only
        exact simpleLoop_sorted endDate maxOccurrences untilDate
          (if (Frequency.biweekly = Frequency.biweekly) then 2 else 1) (by decide)
          600 startDate 0 [] Z0 hZ0 List.Pairwise.nil (by simp)
      | some days =>
        dsimp only
        obtain ⟨hnodup, hrange⟩ := hdays days rfl
        by_cases hlen : 0 < days.length
        · rw [if_pos hlen, hZ0, addDays_fromDays]
          exact weeklyLoop_sorted (fromDays Z0) endDate maxOccurrences untilDate
            (days.insertionSort (· ≤ ·))
            (if (Frequency.biweekly = Frequency.biweekly) then 2 else 1) (by decide)
            (fun w hw => hrange w ((List.perm_insertionSort _ days).mem_iff.mp hw))
            (sorted_nodup_strict (List.sorted_insertionSort _ days)
              ((List.perm_insertionSort _ days).nodup_iff.mpr hnodup))
            _ 600 0 0 [] _ rfl List.Pairwise.nil (by simp)
        · rw [if_neg hlen]
          exact simpleLoop_sorted endDate maxOccurrences untilDate
            (if (Frequency.biweekly = Frequency.biweekly) then 2 else 1) (by decide)
            600 startDate 0 [] Z0 hZ0 List.Pairwise.nil (by simp)
  · intro l1 l2 hperm
    obtain ⟨freq, dw, mpat⟩ := rule
    dsimp only
    cases freq
    case monthly => rfl
    case weekly =>
      dsimp only [generateOccurrences]
      rw [insertionSort_perm_eq hperm, hperm.length_eq]
    case biweekly =>
      dsimp only [generateOccurrences]
      rw [insertionSort_perm_eq hperm, hperm.length_eq]

set_option maxRecDepth 40000 in
/-- C4 witness: the Tue/Thu scenario with the day set supplied out of order
still generates a duplicate-free (ascending) list. -/
theorem generateOccurrences_sorted_witness :
    (generateOccurrences ⟨.weekly, some [4, 2], none⟩ ⟨2026, 0, 6⟩ none (some 4)
        ⟨2026, 11, 31⟩).Nodup :=
  ((generateOccurrences_sorted ⟨.weekly, some [4, 2], none⟩ ⟨2026, 0, 6⟩ none (some 4)
      ⟨2026, 11, 31⟩ (by decide)
      (fun l hl => by
        injection hl with h2
        subst h2
        exact ⟨by decide, by decide⟩)).1).2

/-- C9: the `update-series` instance update writes the new template content
exactly to the rows of this series dated today or later whose exception flag
is false; every other row — past instances, exception instances, rows of
other series — is returned unchanged, all content fields included.  (Rule
and bounds fields live on the series row only; the instance update shown
here is the action's only write to the events table, so rule/bounds edits
never modify past instances.) -/
theorem updateSeries_frame (instances : List SeriesEventInstance) (sid : Nat)
    (today : DateYMD) (newContent : InstanceContent) (k : Nat) (i : SeriesEventInstance)
    (hk : instances[k]? = some i) :
    ((compareDateStrings i.date today < 0 ∨ i.isSeriesException = true ∨ i.seriesId ≠ sid) →
      (updateSeriesInstances instances sid today newContent)[k]? = some i) ∧
    (i.seriesId = sid → i.isSeriesException = false → 0 ≤ compareDateStrings i.date today →
      (updateSeriesInstances instances sid today newContent)[k]? =
        some { i with content := newContent }) := by
  unfold updateSeriesInstances
  rw [List.getElem?_map, hk]
  constructor
  · intro hcase
    simp only [Option.map_some']
    rw [if_neg]
    rintro ⟨h1, h2, h3⟩
    rcases hcase with hc | hc | hc
    · omega
    · rw [hc] at h2
      exact Bool.noConfusion h2
    · exact hc h1
  · intro h1 h2 h3
    simp only [Option.map_some']
    rw [if_pos ⟨h1, h2, h3⟩]

/-- C9 witness: a past instance (dated before today) of the series is
returned unchanged by the content update. -/
theorem updateSeries_frame_witness :
    (updateSeriesInstances
        [⟨5, 1, ⟨2025, 11, 31⟩, false, ⟨"Open Lab", "d", "18:00", none, "Shop", none,
          false, none, none⟩⟩] 1 ⟨2026, 0, 1⟩
        ⟨"New Name", "d2", "19:00", none, "Shop2", some 10, true, none, none⟩)[0]? =
      some ⟨5, 1, ⟨2025, 11, 31⟩, false, ⟨"Open Lab", "d", "18:00", none, "Shop", none,
        false, none, none⟩⟩ :=
  (updateSeries_frame _ 1 ⟨2026, 0, 1⟩ _ 0 _ rfl).1 (Or.inl (by decide))

/-- C10 witness: concrete instantiation (last Friday of February 2026). -/
theorem getNthWeekdayOfMonth_last_isSome_witness :
    (getNthWeekdayOfMonth 2026 1 5 (-1)).isSome = true :=
  getNthWeekdayOfMonth_last_isSome 2026 1 5 (by decide) (by decide)

end Recurrence
